import Mathlib

/-!
Verification of the binary-encoding primitives of `helper.py`:
fixed-width little-endian integer codecs, the Bitcoin-style varint codec,
SHA-256 based checksums and the Base58 / Base58Check text codec.

Byte strings are modelled as `List Nat` (each element a byte value `< 256`);
text is modelled as the list of its ASCII codes.  Fallible Python code
(raising `ValueError` / `OverflowError` / `IndexError`) is modelled with
`Option`.
-/

namespace PB

/-! ## Fixed-width byte renderings of natural numbers -/

/-- Little-endian rendering of `v` into exactly `n` bytes (low bytes of `v`),
the byte level of Python's `v.to_bytes(n, 'little')`. -/
def toBytesLE : Nat → Nat → List Nat
  | 0, _ => []
  | n + 1, v => v % 256 :: toBytesLE n (v / 256)

/-- Big-endian rendering of `v` into exactly `n` bytes (low bytes of `v`),
the byte level of Python's `v.to_bytes(n, 'big')`. -/
def toBytesBE : Nat → Nat → List Nat
  | 0, _ => []
  | n + 1, v => toBytesBE n (v / 256) ++ [v % 256]

/-- `little_endian_to_int` of `helper.py`: `int.from_bytes(b, 'little')`. -/
def little_endian_to_int : List Nat → Nat
  | [] => 0
  | x :: rest => x + 256 * little_endian_to_int rest

/-- `int_to_little_endian` of `helper.py`: `n.to_bytes(length, 'little')`,
which raises `OverflowError` when `n` does not fit in `length` bytes. -/
def int_to_little_endian (n length : Nat) : Option (List Nat) :=
  if n < 256 ^ length then some (toBytesLE length n) else none

/-- Big-endian value of a byte string, `int(hexlify(s), 16)` for nonempty `s`. -/
def beValue (s : List Nat) : Nat :=
  s.foldl (fun acc b => acc * 256 + b) 0

/-! ## Varint codec -/

/-- `read_varint` of `helper.py`.  The stream is the list of remaining bytes;
the result pairs the decoded value with the bytes left over.  `s.read(k)`
on a `BytesIO` returns at most `k` bytes (fewer when the stream is short),
and only `s.read(1)[0]` on an empty stream raises (`IndexError`). -/
def read_varint (s : List Nat) : Option (Nat × List Nat) :=
  match s with
  | [] => none
  | i :: rest =>
    if i = 253 then some (little_endian_to_int (rest.take 2), rest.drop 2)
    else if i = 254 then some (little_endian_to_int (rest.take 4), rest.drop 4)
    else if i = 255 then some (little_endian_to_int (rest.take 8), rest.drop 8)
    else some (i, rest)

/-- `encode_varint` of `helper.py`; raises `RuntimeError` for `i ≥ 2^64`. -/
def encode_varint (i : Nat) : Option (List Nat) :=
  if i < 253 then some [i]
  else if i < 65536 then (int_to_little_endian i 2).map (fun bs => 253 :: bs)
  else if i < 4294967296 then (int_to_little_endian i 4).map (fun bs => 254 :: bs)
  else if i < 18446744073709551616 then
    (int_to_little_endian i 8).map (fun bs => 255 :: bs)
  else none

/-! ## Basic lemmas about the byte renderings -/

theorem toBytesLE_length (n v : Nat) : (toBytesLE n v).length = n := by
  induction n generalizing v with
  | zero => rfl
  | succ n ih => simp [toBytesLE, ih]

theorem toBytesBE_length (n v : Nat) : (toBytesBE n v).length = n := by
  induction n generalizing v with
  | zero => rfl
  | succ n ih => simp [toBytesBE, ih]

theorem toBytesBE_mem_lt (n v b : Nat) (h : b ∈ toBytesBE n v) : b < 256 := by
  induction n generalizing v with
  | zero => simp [toBytesBE] at h
  | succ n ih =>
    simp only [toBytesBE, List.mem_append, List.mem_singleton] at h
    rcases h with h | h
    · exact ih _ h
    · omega

theorem little_endian_to_int_toBytesLE (n v : Nat) (h : v < 256 ^ n) :
    little_endian_to_int (toBytesLE n v) = v := by
  induction n generalizing v with
  | zero => simp at h; simp [toBytesLE, little_endian_to_int, h]
  | succ n ih =>
    have hv : v / 256 < 256 ^ n := by
      rw [Nat.div_lt_iff_lt_mul (by norm_num)]
      calc v < 256 ^ (n + 1) := h
        _ = 256 ^ n * 256 := by ring
    simp [toBytesLE, little_endian_to_int, ih _ hv]
    omega

theorem take_of_len_le {α : Type} (l : List α) (n : Nat) (h : l.length ≤ n) :
    l.take n = l := by
  induction l generalizing n with
  | nil => simp
  | cons a t ih =>
    cases n with
    | zero => simp at h
    | succ n => simp only [List.take_succ_cons]; rw [ih n (by simpa using h)]

theorem drop_of_len_le {α : Type} (l : List α) (n : Nat) (h : l.length ≤ n) :
    l.drop n = [] := by
  induction l generalizing n with
  | nil => simp
  | cons a t ih =>
    cases n with
    | zero => simp at h
    | succ n => simp only [List.drop_succ_cons]; exact ih n (by simpa using h)

theorem read_varint_cons (i : Nat) (rest : List Nat) :
    read_varint (i :: rest) =
      if i = 253 then some (little_endian_to_int (rest.take 2), rest.drop 2)
      else if i = 254 then some (little_endian_to_int (rest.take 4), rest.drop 4)
      else if i = 255 then some (little_endian_to_int (rest.take 8), rest.drop 8)
      else some (i, rest) := rfl

/-- The decoder undoes a marker byte followed by a full-width little-endian
rendering of the value. -/
theorem read_varint_marker (p w v : Nat) (hp : p = 253 ∧ w = 2 ∨ p = 254 ∧ w = 4 ∨
    p = 255 ∧ w = 8) (hv : v < 256 ^ w) :
    read_varint (p :: toBytesLE w v) = some (v, []) := by
  have htk : (toBytesLE w v).take w = toBytesLE w v :=
    take_of_len_le _ _ (by rw [toBytesLE_length])
  have hdp : (toBytesLE w v).drop w = [] :=
    drop_of_len_le _ _ (by rw [toBytesLE_length])
  rcases hp with ⟨hp, hw⟩ | ⟨hp, hw⟩ | ⟨hp, hw⟩ <;> subst hp <;> subst hw <;>
    rw [read_varint_cons]
  · rw [if_pos rfl, htk, hdp, little_endian_to_int_toBytesLE 2 v hv]
  · rw [if_neg (by norm_num), if_pos rfl, htk, hdp,
      little_endian_to_int_toBytesLE 4 v hv]
  · rw [if_neg (by norm_num), if_neg (by norm_num), if_pos rfl, htk, hdp,
      little_endian_to_int_toBytesLE 8 v hv]

/-! ## Varint claim theorems -/

/-- C3: for every `v` with `0 ≤ v ≤ 2^64 - 1`, reading a varint from a stream
containing exactly the bytes of `encode_varint v` returns `v` (and consumes
the whole stream). -/
theorem varint_roundtrip (v : Nat) (h : v < 2 ^ 64) :
    (encode_varint v).bind read_varint = some (v, []) := by
  have h64 : (2 : Nat) ^ 64 = 18446744073709551616 := by norm_num
  by_cases h1 : v < 253
  · simp only [encode_varint, if_pos h1, Option.some_bind, read_varint_cons]
    rw [if_neg (by omega), if_neg (by omega), if_neg (by omega)]
  · by_cases h2 : v < 65536
    · have hfit : v < 256 ^ 2 := by norm_num; omega
      rw [encode_varint, if_neg h1, if_pos h2, int_to_little_endian, if_pos hfit,
        Option.map_some', Option.some_bind,
        read_varint_marker 253 2 v (by norm_num) hfit]
    · by_cases h3 : v < 4294967296
      · have hfit : v < 256 ^ 4 := by norm_num; omega
        rw [encode_varint, if_neg h1, if_neg h2, if_pos h3, int_to_little_endian,
          if_pos hfit, Option.map_some', Option.some_bind,
          read_varint_marker 254 4 v (by norm_num) hfit]
      · have h4 : v < 18446744073709551616 := by omega
        have hfit : v < 256 ^ 8 := by norm_num; omega
        rw [encode_varint, if_neg h1, if_neg h2, if_neg h3, if_pos h4,
          int_to_little_endian, if_pos hfit, Option.map_some', Option.some_bind,
          read_varint_marker 255 8 v (by norm_num) hfit]

/-- Witness for C3 at `v = 5000000000` (the 9-byte case). -/
theorem varint_roundtrip_witness :
    (encode_varint 5000000000).bind read_varint = some (5000000000, []) :=
  varint_roundtrip 5000000000 (by norm_num)

/-- Counterexample for C4: a stream holding a `0xFD` prefix followed by a
single byte (fewer than the two required) does not fail; `read_varint`
returns the value of the one available byte. -/
theorem read_varint_exhaustion_counterexample :
    read_varint [253, 5] = some (5, []) := by decide

/-- C4 (amended): `read_varint` fails exactly on the empty stream (no prefix
byte available); after a `0xFD`/`0xFE`/`0xFF` prefix followed by fewer than
2/4/8 bytes it succeeds, returning the little-endian value of whatever bytes
remain. -/
theorem read_varint_exhaustion (s : List Nat) :
    (read_varint s = none ↔ s = []) ∧
    (∀ p rest, s = p :: rest →
      (p = 253 ∧ rest.length < 2 ∨ p = 254 ∧ rest.length < 4 ∨
        p = 255 ∧ rest.length < 8) →
      read_varint s = some (little_endian_to_int rest, [])) := by
  constructor
  · cases s with
    | nil => simp [read_varint]
    | cons i rest =>
      rw [read_varint_cons]
      constructor
      · intro hnone
        by_cases h1 : i = 253
        · rw [if_pos h1] at hnone; exact absurd hnone (by simp)
        · rw [if_neg h1] at hnone
          by_cases h2 : i = 254
          · rw [if_pos h2] at hnone; exact absurd hnone (by simp)
          · rw [if_neg h2] at hnone
            by_cases h3 : i = 255
            · rw [if_pos h3] at hnone; exact absurd hnone (by simp)
            · rw [if_neg h3] at hnone; exact absurd hnone (by simp)
      · intro hnil; exact absurd hnil (by simp)
  · intro p rest hs hshort
    subst hs
    have htk : ∀ n, rest.length ≤ n → rest.take n = rest := fun n hn =>
      take_of_len_le rest n hn
    have hdp : ∀ n, rest.length ≤ n → rest.drop n = [] := fun n hn =>
      drop_of_len_le rest n hn
    rcases hshort with ⟨hp, hl⟩ | ⟨hp, hl⟩ | ⟨hp, hl⟩ <;> subst hp <;>
      rw [read_varint_cons]
    · rw [if_pos rfl, htk 2 (by omega), hdp 2 (by omega)]
    · rw [if_neg (by norm_num), if_pos rfl, htk 4 (by omega), hdp 4 (by omega)]
    · rw [if_neg (by norm_num), if_neg (by norm_num), if_pos rfl,
        htk 8 (by omega), hdp 8 (by omega)]

/-- Witness for C4 (amended) at the stream `[0xFD, 0x07]`. -/
theorem read_varint_exhaustion_witness :
    read_varint [253, 7] = some (little_endian_to_int [7], []) :=
  (read_varint_exhaustion [253, 7]).2 253 [7] rfl (Or.inl ⟨rfl, by decide⟩)

/-- C5: `encode_varint` selects the smallest of the four widths: the value
itself as one byte below `0xFD`, else a marker byte followed by the 2-, 4- or
8-byte little-endian rendering, for totals of 3, 5 and 9 bytes. -/
theorem encode_varint_minimal_width (v : Nat) (h : v < 2 ^ 64) :
    encode_varint v = some (
      if v < 253 then [v]
      else if v < 65536 then 253 :: toBytesLE 2 v
      else if v < 4294967296 then 254 :: toBytesLE 4 v
      else 255 :: toBytesLE 8 v) ∧
    (encode_varint v).map List.length = some (
      if v < 253 then 1 else if v < 65536 then 3
      else if v < 4294967296 then 5 else 9) := by
  have h64 : (2 : Nat) ^ 64 = 18446744073709551616 := by norm_num
  by_cases h1 : v < 253
  · rw [encode_varint, if_pos h1]
    constructor
    · rw [if_pos h1]
    · rw [if_pos h1]; rfl
  · by_cases h2 : v < 65536
    · have hfit : v < 256 ^ 2 := by norm_num; omega
      rw [encode_varint, if_neg h1, if_pos h2, int_to_little_endian, if_pos hfit,
        Option.map_some']
      refine ⟨by rw [if_neg h1, if_pos h2], ?_⟩
      rw [if_neg h1, if_pos h2, Option.map_some']
      simp [toBytesLE_length]
    · by_cases h3 : v < 4294967296
      · have hfit : v < 256 ^ 4 := by norm_num; omega
        rw [encode_varint, if_neg h1, if_neg h2, if_pos h3, int_to_little_endian,
          if_pos hfit, Option.map_some']
        refine ⟨by rw [if_neg h1, if_neg h2, if_pos h3], ?_⟩
        rw [if_neg h1, if_neg h2, if_pos h3, Option.map_some']
        simp [toBytesLE_length]
      · have h4 : v < 18446744073709551616 := by omega
        have hfit : v < 256 ^ 8 := by norm_num; omega
        rw [encode_varint, if_neg h1, if_neg h2, if_neg h3, if_pos h4,
          int_to_little_endian, if_pos hfit, Option.map_some']
        refine ⟨by rw [if_neg h1, if_neg h2, if_neg h3], ?_⟩
        rw [if_neg h1, if_neg h2, if_neg h3, Option.map_some']
        simp [toBytesLE_length]

/-- Witness for C5 at `v = 300` (the 3-byte case). -/
theorem encode_varint_minimal_width_witness :
    encode_varint 300 = some (
      if (300 : Nat) < 253 then [300]
      else if (300 : Nat) < 65536 then 253 :: toBytesLE 2 300
      else if (300 : Nat) < 4294967296 then 254 :: toBytesLE 4 300
      else 255 :: toBytesLE 8 300) :=
  (encode_varint_minimal_width 300 (by norm_num)).1

/-- C6: `encode_varint` fails (raises) for every value at or above `2^64`,
producing no truncated encoding. -/
theorem encode_varint_too_large (v : Nat) (h : 2 ^ 64 ≤ v) :
    encode_varint v = none := by
  have h64 : (2 : Nat) ^ 64 = 18446744073709551616 := by norm_num
  rw [encode_varint, if_neg (by omega), if_neg (by omega), if_neg (by omega),
    if_neg (by omega)]

/-- Witness for C6 at `v = 2^64` exactly. -/
theorem encode_varint_too_large_witness : encode_varint (2 ^ 64) = none :=
  encode_varint_too_large (2 ^ 64) (le_refl _)

/-- C7: for every positive width `len` and every `v < 256^len`, rendering `v`
little-endian at width `len` and reading the bytes back recovers `v`. -/
theorem little_endian_roundtrip (len v : Nat) (h1 : 0 < len)
    (h2 : v < 256 ^ len) :
    (int_to_little_endian v len).map little_endian_to_int = some v := by
  rw [int_to_little_endian, if_pos h2, Option.map_some',
    little_endian_to_int_toBytesLE len v h2]

/-- Witness for C7 at `len = 8`, `v = 10011545` (the repository's own test
vector). -/
theorem little_endian_roundtrip_witness :
    (int_to_little_endian 10011545 8).map little_endian_to_int =
      some 10011545 :=
  little_endian_roundtrip 8 10011545 (by norm_num) (by norm_num)

/-- C8: for every positive width `len`, a value `v ≥ 256^len` makes
`int_to_little_endian` fail rather than truncate. -/
theorem int_to_little_endian_too_large (v len : Nat) (h1 : 0 < len)
    (h2 : 256 ^ len ≤ v) : int_to_little_endian v len = none := by
  rw [int_to_little_endian, if_neg (by omega)]

/-- Witness for C8 at `v = 256`, `len = 1`. -/
theorem int_to_little_endian_too_large_witness :
    int_to_little_endian 256 1 = none :=
  int_to_little_endian_too_large 256 1 (by norm_num) (by norm_num)

/-! ## SHA-256 (the `hashlib.sha256` primitive used by `double_sha256`)

A byte-level implementation of FIPS 180-4 SHA-256 over `List Nat`, with
32-bit words as `Nat` reduced modulo `2^32`. -/

/-- Reduce to a 32-bit word. -/
def w32 (x : Nat) : Nat := x % 4294967296

/-- Right rotation of a 32-bit word by `n` places. -/
def rotr (n x : Nat) : Nat := w32 ((x >>> n) ||| (x <<< (32 - n)))

/-- The eight-word SHA-256 chaining state. -/
def Hash8 : Type := Nat × Nat × Nat × Nat × Nat × Nat × Nat × Nat

/-- SHA-256 round constants (FIPS 180-4, in decimal). -/
def sha256K : List Nat :=
  [1116352408, 1899447441, 3049323471, 3921009573, 961987163, 1508970993,
   2453635748, 2870763221, 3624381080, 310598401, 607225278, 1426881987,
   1925078388, 2162078206, 2614888103, 3248222580, 3835390401, 4022224774,
   264347078, 604807628, 770255983, 1249150122, 1555081692, 1996064986,
   2554220882, 2821834349, 2952996808, 3210313671, 3336571891, 3584528711,
   113926993, 338241895, 666307205, 773529912, 1294757372, 1396182291,
   1695183700, 1986661051, 2177026350, 2456956037, 2730485921, 2820302411,
   3259730800, 3345764771, 3516065817, 3600352804, 4094571909, 275423344,
   430227734, 506948616, 659060556, 883997877, 958139571, 1322822218,
   1537002063, 1747873779, 1955562222, 2024104815, 2227730452, 2361852424,
   2428436474, 2756734187, 3204031479, 3329325298]

/-- SHA-256 initial chaining state (FIPS 180-4, in decimal). -/
def sha256H0 : Hash8 :=
  (1779033703, 3144134277, 1013904242, 2773480762,
   1359893119, 2600822924, 528734635, 1541459225)

def smallSigma0 (x : Nat) : Nat := w32 (rotr 7 x ^^^ rotr 18 x ^^^ (x >>> 3))

def smallSigma1 (x : Nat) : Nat := w32 (rotr 17 x ^^^ rotr 19 x ^^^ (x >>> 10))

def bigSigma0 (x : Nat) : Nat := w32 (rotr 2 x ^^^ rotr 13 x ^^^ rotr 22 x)

def bigSigma1 (x : Nat) : Nat := w32 (rotr 6 x ^^^ rotr 11 x ^^^ rotr 25 x)

/-- Pack a block of bytes into big-endian 32-bit words. -/
def toWordsBE : List Nat → List Nat
  | b0 :: b1 :: b2 :: b3 :: rest =>
    (((b0 * 256 + b1) * 256 + b2) * 256 + b3) :: toWordsBE rest
  | _ => []

/-- Extend a 16-word block schedule by `n` further words. -/
def extendSchedule : Nat → List Nat → List Nat
  | 0, ws => ws
  | n + 1, ws =>
    let i := ws.length
    let nw := w32 (ws.getD (i - 16) 0 + smallSigma0 (ws.getD (i - 15) 0) +
      ws.getD (i - 7) 0 + smallSigma1 (ws.getD (i - 2) 0))
    extendSchedule n (ws ++ [nw])

/-- One SHA-256 compression round; `kw` is the round constant plus the
schedule word. -/
def compressRound (st : Hash8) (kw : Nat) : Hash8 :=
  match st with
  | (a, b, c, d, e, f, g, h) =>
    let t1 := w32 (h + bigSigma1 e + ((e &&& f) ^^^ ((e ^^^ 4294967295) &&& g)) + kw)
    let t2 := w32 (bigSigma0 a + ((a &&& b) ^^^ (a &&& c) ^^^ (b &&& c)))
    (w32 (t1 + t2), a, b, c, w32 (d + t1), e, f, g)

/-- Word-wise modular addition of two chaining states. -/
def addHash : Hash8 → Hash8 → Hash8
  | (a, b, c, d, e, f, g, h), (a', b', c', d', e', f', g', h') =>
    (w32 (a + a'), w32 (b + b'), w32 (c + c'), w32 (d + d'),
     w32 (e + e'), w32 (f + f'), w32 (g + g'), w32 (h + h'))

/-- Compress one 64-byte block into the chaining state. -/
def compressBlock (h0 : Hash8) (block : List Nat) : Hash8 :=
  let ws := extendSchedule 48 (toWordsBE block)
  let kws := List.zipWith (fun k w => w32 (k + w)) sha256K ws
  addHash h0 (kws.foldl compressRound h0)

/-- Split a byte list into 64-byte chunks (fuel-based for kernel reduction). -/
def chunks64Aux : Nat → List Nat → List (List Nat)
  | 0, _ => []
  | fuel + 1, l => if l = [] then [] else l.take 64 :: chunks64Aux fuel (l.drop 64)

def chunks64 (l : List Nat) : List (List Nat) := chunks64Aux l.length l

/-- SHA-256 padding: `0x80`, zeros to 56 mod 64, then the bit length as eight
big-endian bytes. -/
def sha256pad (msg : List Nat) : List Nat :=
  let padlen := (120 - (msg.length + 1) % 64) % 64
  msg ++ 128 :: (List.replicate padlen 0 ++ toBytesBE 8 (8 * msg.length))

/-- Serialize a chaining state as 32 big-endian bytes. -/
def hashBytes : Hash8 → List Nat
  | (a, b, c, d, e, f, g, h) =>
    toBytesBE 4 a ++ toBytesBE 4 b ++ toBytesBE 4 c ++ toBytesBE 4 d ++
    toBytesBE 4 e ++ toBytesBE 4 f ++ toBytesBE 4 g ++ toBytesBE 4 h

/-- Full SHA-256 digest (32 bytes) of a byte string. -/
def sha256 (msg : List Nat) : List Nat :=
  hashBytes ((chunks64 (sha256pad msg)).foldl compressBlock sha256H0)

/-- `double_sha256` of `helper.py`: two rounds of SHA-256. -/
def double_sha256 (s : List Nat) : List Nat := sha256 (sha256 s)

theorem hashBytes_length (st : Hash8) : (hashBytes st).length = 32 := by
  obtain ⟨a, b, c, d, e, f, g, h⟩ := st
  simp [hashBytes, List.length_append, toBytesBE_length]

theorem hashBytes_mem_lt (st : Hash8) : ∀ b ∈ hashBytes st, b < 256 := by
  obtain ⟨x0, x1, x2, x3, x4, x5, x6, x7⟩ := st
  simp only [hashBytes, List.forall_mem_append]
  refine ⟨⟨⟨⟨⟨⟨⟨?_, ?_⟩, ?_⟩, ?_⟩, ?_⟩, ?_⟩, ?_⟩, ?_⟩ <;>
    exact fun b hb => toBytesBE_mem_lt 4 _ b hb

theorem sha256_length (msg : List Nat) : (sha256 msg).length = 32 :=
  hashBytes_length _

theorem sha256_mem_lt (msg : List Nat) : ∀ b ∈ sha256 msg, b < 256 :=
  hashBytes_mem_lt _

/-! ## Base58 / Base58Check codec -/

/-- `BASE58_ALPHABET` of `helper.py` as ASCII codes:
`123456789ABCDEFGHJKLMNPQRSTUVWXYZabcdefghijkmnopqrstuvwxyz`. -/
def BASE58_ALPHABET : List Nat :=
  [49, 50, 51, 52, 53, 54, 55, 56, 57,
   65, 66, 67, 68, 69, 70, 71, 72, 74, 75, 76, 77, 78,
   80, 81, 82, 83, 84, 85, 86, 87, 88, 89, 90,
   97, 98, 99, 100, 101, 102, 103, 104, 105, 106, 107, 109,
   110, 111, 112, 113, 114, 115, 116, 117, 118, 119, 120, 121, 122]

/-- The `while num > 0` digit loop of `encode_base58`, most significant digit
first; fuel-based (the quotient strictly decreases, so `num` steps suffice). -/
def base58CharsAux : Nat → Nat → List Nat
  | 0, _ => []
  | fuel + 1, num =>
    if num = 0 then []
    else base58CharsAux fuel (num / 58) ++ [BASE58_ALPHABET.getD (num % 58) 0]

def base58Chars (num : Nat) : List Nat := base58CharsAux num num

/-- `encode_base58` of `helper.py`.  The leading `0x00` bytes become leading
`'1'` characters; the rest of the value goes through the base-58 digit loop.
On the empty byte string `int(hexlify(s), 16)` raises `ValueError`. -/
def encode_base58 (s : List Nat) : Option (List Nat) :=
  if s = [] then none
  else some (List.replicate (s.takeWhile (fun c => c == 0)).length 49 ++
    base58Chars (beValue s))

/-- `encode_base58_checksum` of `helper.py`: append the first four bytes of
the double SHA-256 of the payload, then base58-encode. -/
def encode_base58_checksum (s : List Nat) : Option (List Nat) :=
  encode_base58 (s ++ (double_sha256 s).take 4)

/-- `BASE58_ALPHABET.index(c)`: position of `c` in the alphabet, failing
(`ValueError`) when `c` is not an alphabet character. -/
def b58Index (c : Nat) : Option Nat :=
  BASE58_ALPHABET.findIdx? (fun x => x == c)

/-- The accumulation loop of `decode_base58`: `num = num * 58 + index(c)`. -/
def b58Value (acc : Nat) : List Nat → Option Nat
  | [] => some acc
  | c :: rest =>
    match b58Index c with
    | none => none
    | some i => b58Value (acc * 58 + i) rest

/-- `decode_base58` of `helper.py`: accumulate the base-58 value of the text,
render it as 25 big-endian bytes (`OverflowError` when it does not fit), and
return bytes 1 through 20 (dropping the version byte and the 4 checksum
bytes). -/
def decode_base58 (s : List Nat) : Option (List Nat) :=
  (b58Value 0 s).bind (fun num =>
    if num < 256 ^ 25 then some (((toBytesBE 25 num).drop 1).take 20) else none)

/-! ## Lemmas about big-endian values and base-58 digits -/

theorem beValue_append_singleton (l : List Nat) (a : Nat) :
    beValue (l ++ [a]) = beValue l * 256 + a := by
  simp [beValue, List.foldl_append]

theorem beValue_lt (s : List Nat) (hb : ∀ x ∈ s, x < 256) :
    beValue s < 256 ^ s.length := by
  induction s using List.reverseRecOn with
  | nil => simp [beValue]
  | append_singleton l a ih =>
    rw [beValue_append_singleton]
    have h1 : beValue l < 256 ^ l.length :=
      ih (fun x hx => hb x (List.mem_append_left _ hx))
    have h2 : a < 256 := hb a (List.mem_append_right _ (List.mem_singleton_self a))
    have h3 : (l ++ [a]).length = l.length + 1 := by simp
    rw [h3, pow_succ]
    have : (beValue l + 1) * 256 ≤ 256 ^ l.length * 256 :=
      mul_le_mul_right' (by omega) 256
    omega

theorem toBytesBE_beValue (s : List Nat) (hb : ∀ x ∈ s, x < 256) :
    toBytesBE s.length (beValue s) = s := by
  induction s using List.reverseRecOn with
  | nil => simp [beValue, toBytesBE]
  | append_singleton l a ih =>
    have h2 : a < 256 := hb a (List.mem_append_right _ (List.mem_singleton_self a))
    have h3 : (l ++ [a]).length = l.length + 1 := by simp
    rw [h3, beValue_append_singleton, toBytesBE]
    have hdiv : (beValue l * 256 + a) / 256 = beValue l := by omega
    have hmod : (beValue l * 256 + a) % 256 = a := by omega
    rw [hdiv, hmod, ih (fun x hx => hb x (List.mem_append_left _ hx))]

theorem toBytesBE_zero_cons (n v : Nat) (h : v < 256 ^ n) :
    toBytesBE (n + 1) v = 0 :: toBytesBE n v := by
  induction n generalizing v with
  | zero =>
    simp at h
    subst h
    rfl
  | succ n ih =>
    have hv : v / 256 < 256 ^ n := by
      rw [Nat.div_lt_iff_lt_mul (by norm_num)]
      calc v < 256 ^ (n + 1) := h
        _ = 256 ^ n * 256 := by ring
    show toBytesBE (n + 1) (v / 256) ++ [v % 256] = 0 :: toBytesBE (n + 1) v
    rw [ih _ hv]
    rfl

theorem b58Index_getD : ∀ d < 58, b58Index (BASE58_ALPHABET.getD d 0) = some d := by
  decide

/-- One step of the decode loop when the character is in the alphabet. -/
theorem b58Value_cons_of_index (acc c i : Nat) (rest : List Nat)
    (h : b58Index c = some i) :
    b58Value acc (c :: rest) = b58Value (acc * 58 + i) rest := by
  rw [b58Value, h]

/-- The fuel argument of `base58CharsAux` is irrelevant once it is at least
the starting value. -/
theorem base58CharsAux_congr (fuel fuel' num : Nat) (h : num ≤ fuel)
    (h' : num ≤ fuel') : base58CharsAux fuel num = base58CharsAux fuel' num := by
  induction fuel generalizing fuel' num with
  | zero =>
    have : num = 0 := by omega
    subst this
    cases fuel' with
    | zero => rfl
    | succ f => simp [base58CharsAux]
  | succ f ih =>
    by_cases h0 : num = 0
    · subst h0
      cases fuel' with
      | zero => rfl
      | succ f' => simp [base58CharsAux]
    · cases fuel' with
      | zero => omega
      | succ f' =>
        have hq : num / 58 < num := Nat.div_lt_self (by omega) (by norm_num)
        rw [base58CharsAux, base58CharsAux, if_neg h0, if_neg h0,
          ih f' (num / 58) (by omega) (by omega)]

/-- Unfolding equation for `base58Chars`, matching the Python loop. -/
theorem base58Chars_eq (num : Nat) :
    base58Chars num = if num = 0 then []
      else base58Chars (num / 58) ++ [BASE58_ALPHABET.getD (num % 58) 0] := by
  by_cases h0 : num = 0
  · subst h0; rfl
  · rw [if_neg h0, base58Chars, base58Chars]
    obtain ⟨k, rfl⟩ : ∃ k, num = k + 1 := ⟨num - 1, by omega⟩
    rw [base58CharsAux, if_neg h0]
    have hq : (k + 1) / 58 < k + 1 := Nat.div_lt_self (by omega) (by norm_num)
    rw [base58CharsAux_congr k ((k + 1) / 58) ((k + 1) / 58) (by omega)
      (le_refl _)]

/-- Accumulating the decode loop over the digit string of `num` (then a
suffix) multiplies the accumulator past those digits and adds `num`. -/
theorem b58Value_chars (num : Nat) : ∀ acc rest,
    b58Value acc (base58Chars num ++ rest) =
      b58Value (acc * 58 ^ (base58Chars num).length + num) rest := by
  induction num using Nat.strong_induction_on with
  | _ num ih =>
    intro acc rest
    by_cases h0 : num = 0
    · subst h0
      rw [base58Chars_eq, if_pos rfl]
      simp
    · rw [base58Chars_eq, if_neg h0, List.append_assoc, List.singleton_append]
      have hq : num / 58 < num := Nat.div_lt_self (by omega) (by norm_num)
      rw [ih (num / 58) hq acc]
      have hr : num % 58 < 58 := Nat.mod_lt _ (by norm_num)
      rw [b58Value_cons_of_index _ _ _ _ (b58Index_getD (num % 58) hr)]
      have harith : (acc * 58 ^ (base58Chars (num / 58)).length + num / 58) * 58 +
          num % 58 =
          acc * 58 ^ ((base58Chars (num / 58)).length + 1) + num := by
        rw [pow_succ, ← mul_assoc]
        have hdm : 58 * (num / 58) + num % 58 = num := Nat.div_add_mod num 58
        generalize acc * 58 ^ (base58Chars (num / 58)).length = ap at *
        omega
      rw [harith]
      congr 2
      simp [List.length_append]

/-- Leading `'1'` characters contribute nothing to the accumulated value. -/
theorem b58Value_ones (k : Nat) (l : List Nat) :
    b58Value 0 (List.replicate k 49 ++ l) = b58Value 0 l := by
  induction k with
  | zero => rfl
  | succ k ih =>
    rw [List.replicate_succ, List.cons_append, b58Value]
    have h49 : b58Index 49 = some 0 := by decide
    rw [h49]
    simpa using ih

theorem b58Value_chars_nil (num : Nat) :
    b58Value 0 (base58Chars num) = some num := by
  have h := b58Value_chars num 0 []
  rw [List.append_nil] at h
  simpa [b58Value] using h

/-- Whenever `decode_base58` succeeds it produces exactly 20 bytes: the take
of bytes 1 through 20 of the fixed 25-byte buffer. -/
theorem decode_base58_len_helper (s l : List Nat)
    (h : decode_base58 s = some l) : l.length = 20 := by
  rw [decode_base58] at h
  cases hv : b58Value 0 s with
  | none => rw [hv] at h; simp at h
  | some num =>
    rw [hv, Option.some_bind] at h
    by_cases hn : num < 256 ^ 25
    · rw [if_pos hn] at h
      have h2 := congrArg (fun o => (Option.getD o []).length) h
      simp only [Option.getD_some] at h2
      rw [← h2, List.length_take, List.length_drop, toBytesBE_length]
      norm_num
    · rw [if_neg hn] at h
      exact absurd h (by simp)

/-- Decoding after encoding a 24-byte string returns its first 20 bytes:
the accumulated value reconstructs the full 24 bytes behind one zero byte in
the 25-byte buffer, and the slice keeps positions 1 through 20. -/
theorem decode_encode_24 (s : List Nat) (hb : ∀ x ∈ s, x < 256)
    (hlen : s.length = 24) :
    (encode_base58 s).bind decode_base58 = some (s.take 20) := by
  have hne : s ≠ [] := by
    intro h
    rw [h] at hlen
    simp at hlen
  have hval : beValue s < 256 ^ 24 := by
    have := beValue_lt s hb
    rwa [hlen] at this
  rw [encode_base58, if_neg hne, Option.some_bind, decode_base58,
    b58Value_ones, b58Value_chars_nil, Option.some_bind,
    if_pos (lt_trans hval (by norm_num : (256 : Nat) ^ 24 < 256 ^ 25)),
    toBytesBE_zero_cons 24 _ hval]
  have h24 : toBytesBE 24 (beValue s) = s := by
    have := toBytesBE_beValue s hb
    rwa [hlen] at this
  rw [h24, List.drop_succ_cons, List.drop_zero]

/-! ## Base58 claim theorems -/

/-- Counterexample for C1 at `b = []`: the round trip cannot return the empty
string, because a successful `decode_base58` always has 20 bytes. -/
theorem base58check_roundtrip_counterexample :
    (encode_base58_checksum []).bind decode_base58 ≠ some [] := by
  intro h
  cases he : encode_base58_checksum [] with
  | none => rw [he] at h; exact absurd h (by simp)
  | some t =>
    rw [he, Option.some_bind] at h
    have := decode_base58_len_helper t [] h
    simp at this

/-- C1 (amended): for every byte string `b` of length exactly 20 (bytes
`< 256`), decoding the base58check encoding of `b` returns `b`; for other
lengths the identity cannot hold, since a successful decode always returns
20 bytes. -/
theorem base58check_roundtrip (b : List Nat) (h20 : b.length = 20)
    (hb : ∀ x ∈ b, x < 256) :
    (encode_base58_checksum b).bind decode_base58 = some b := by
  have hcs : ((double_sha256 b).take 4).length = 4 := by
    rw [List.length_take, double_sha256, sha256_length]
    norm_num
  have hlen : (b ++ (double_sha256 b).take 4).length = 24 := by
    rw [List.length_append, h20, hcs]
  have hbb : ∀ x ∈ b ++ (double_sha256 b).take 4, x < 256 := by
    intro x hx
    rcases List.mem_append.mp hx with hx | hx
    · exact hb x hx
    · exact sha256_mem_lt _ x (List.mem_of_mem_take hx)
  rw [encode_base58_checksum, decode_encode_24 _ hbb hlen,
    List.take_left' h20]

/-- Witness for C1 (amended) at the 20-byte string of zeros. -/
theorem base58check_roundtrip_witness :
    (encode_base58_checksum (List.replicate 20 0)).bind decode_base58 =
      some (List.replicate 20 0) :=
  base58check_roundtrip (List.replicate 20 0) (by simp) (by decide)

/-- Counterexample for C2 at `payload = [1]`: the decoded result has twenty
leading zero bytes, not exactly two. -/
theorem decode_leading_zeros_counterexample :
    ((encode_base58 [0, 0, 1]).bind decode_base58).map
      (fun l => (l.takeWhile (fun b => b == 0)).length) ≠ some 2 := by
  decide

/-- C2 (amended): when the payload is 22 bytes (bytes `< 256`) with a nonzero
first byte, `decode_base58 (encode_base58 ([0, 0] ++ payload))` returns the
two zero bytes followed by the first 18 payload bytes — exactly two leading
zero bytes.  For other payload shapes the fixed 25-byte decode buffer sets
the number of leading zeros to `24 - payload.length`, not 2. -/
theorem decode_leading_zeros (p : List Nat) (hlen : p.length = 22)
    (hb : ∀ x ∈ p, x < 256) (hhd : p.head? ≠ some 0) :
    (encode_base58 (0 :: 0 :: p)).bind decode_base58 =
      some (0 :: 0 :: p.take 18) ∧
    ((0 :: 0 :: p.take 18).takeWhile (fun b => b == 0)).length = 2 := by
  obtain ⟨a, t, rfl⟩ : ∃ a t, p = a :: t := by
    cases p with
    | nil => simp at hlen
    | cons a t => exact ⟨a, t, rfl⟩
  have ha : a ≠ 0 := by
    intro h
    exact hhd (by rw [h]; rfl)
  constructor
  · have hlen' : (0 :: 0 :: a :: t).length = 24 := by
      simp only [List.length_cons] at hlen ⊢
      omega
    have hbb : ∀ x ∈ 0 :: 0 :: a :: t, x < 256 := by
      intro x hx
      simp only [List.mem_cons] at hx
      rcases hx with rfl | rfl | hx
      · omega
      · omega
      · exact hb x (by simpa using hx)
    rw [decode_encode_24 _ hbb hlen']
    rfl
  · rw [List.take_succ_cons, List.takeWhile_cons_of_pos (by decide),
      List.takeWhile_cons_of_pos (by decide),
      List.takeWhile_cons_of_neg (by simpa using ha)]
    rfl

/-- Witness for C2 (amended) at `payload = 1 :: 21 zero bytes`. -/
theorem decode_leading_zeros_witness :
    (encode_base58 (0 :: 0 :: (1 :: List.replicate 21 0))).bind decode_base58 =
      some (0 :: 0 :: (1 :: List.replicate 21 0).take 18) :=
  (decode_leading_zeros (1 :: List.replicate 21 0) (by simp) (by decide)
    (by decide)).1

theorem beValue_replicate_zero (n : Nat) : beValue (List.replicate n 0) = 0 := by
  induction n with
  | zero => rfl
  | succ n ih =>
    rw [List.replicate_succ]
    show List.foldl (fun acc b => acc * 256 + b) (0 * 256 + 0) _ = 0
    simpa [beValue] using ih

theorem takeWhile_zeros (n : Nat) :
    (List.replicate n 0).takeWhile (fun c => c == 0) = List.replicate n 0 := by
  induction n with
  | zero => rfl
  | succ n ih =>
    rw [List.replicate_succ, List.takeWhile_cons_of_pos (by decide), ih]

/-- Counterexample for C9 at `n = 0`: on the empty byte string the code
raises (`int(b'', 16)` is a `ValueError`) instead of returning the empty
text. -/
theorem encode_base58_all_zero_counterexample :
    encode_base58 (List.replicate 0 0) ≠ some (List.replicate 0 49) := by
  decide

/-- C9 (amended): for every `n ≥ 1`, encoding `n` zero bytes yields exactly
`n` copies of `'1'` (code 49); at `n = 0` the code raises instead. -/
theorem encode_base58_all_zero (n : Nat) (h : 1 ≤ n) :
    encode_base58 (List.replicate n 0) = some (List.replicate n 49) := by
  have hne : List.replicate n 0 ≠ [] := by
    cases n with
    | zero => omega
    | succ m => simp [List.replicate_succ]
  rw [encode_base58, if_neg hne, takeWhile_zeros, List.length_replicate,
    beValue_replicate_zero]
  show some (List.replicate n 49 ++ base58Chars 0) = _
  rw [base58Chars_eq, if_pos rfl, List.append_nil]

/-- Witness for C9 (amended) at `n = 3`. -/
theorem encode_base58_all_zero_witness :
    encode_base58 (List.replicate 3 0) = some (List.replicate 3 49) :=
  encode_base58_all_zero 3 (by norm_num)

/-- C10: whenever `decode_base58` succeeds it returns exactly 20 bytes,
whatever the input text; and it fails when the accumulated integer does not
fit in 25 bytes. -/
theorem decode_base58_twenty_bytes (s : List Nat) :
    (∀ l, decode_base58 s = some l → l.length = 20) ∧
    (∀ num, b58Value 0 s = some num → 256 ^ 25 ≤ num →
      decode_base58 s = none) := by
  constructor
  · intro l hl
    exact decode_base58_len_helper s l hl
  · intro num hnum hge
    rw [decode_base58, hnum, Option.some_bind, if_neg (by omega)]

/-- Witness for C10: a one-character text decodes to 20 bytes, and a
35-character text whose value overflows the 25-byte buffer fails. -/
theorem decode_base58_twenty_bytes_witness :
    (List.replicate 20 (0 : Nat)).length = 20 ∧
    decode_base58 (List.replicate 35 122) = none :=
  ⟨(decode_base58_twenty_bytes [49]).1 (List.replicate 20 0) (by decide),
   (decode_base58_twenty_bytes (List.replicate 35 122)).2 (58 ^ 35 - 1)
     (by decide) (by norm_num)⟩

/-! ## Fidelity checks: the repository's own `test_base58` vectors -/

/-- ASCII codes of the address `mnrVtF8DWjMu839VW3rBfgYaAfKk8983Xf`. -/
def testAddr : List Nat :=
  [109, 110, 114, 86, 116, 70, 56, 68, 87, 106, 77, 117, 56, 51, 57, 86, 87,
   51, 114, 66, 102, 103, 89, 97, 65, 102, 75, 107, 56, 57, 56, 51, 88, 102]

/-- The 20-byte hash `507b27411ccf7f16f10297de6cef3f291623eddf`. -/
def testH160 : List Nat :=
  [0x50, 0x7b, 0x27, 0x41, 0x1c, 0xcf, 0x7f, 0x16, 0xf1, 0x02,
   0x97, 0xde, 0x6c, 0xef, 0x3f, 0x29, 0x16, 0x23, 0xed, 0xdf]

example : decode_base58 testAddr = some testH160 := by decide

set_option maxRecDepth 4000 in
set_option maxHeartbeats 1000000 in
example : encode_base58_checksum (0x6f :: testH160) = some testAddr := by
  decide

end PB
